import Mathlib

/-!
Shallow embedding of simplellg/mallinson.py: the closed-form Mallinson
solution of the zero-dimensional LLG switching problem.

Python float arithmetic is modelled over the reals.  Operations that can
raise in Python (division by zero raises ZeroDivisionError, math.log of a
non-positive number raises ValueError, indexing an empty list raises
IndexError, scipy.linspace with a negative sample count raises ValueError)
are modelled as Option-valued functions returning none exactly where the
Python code raises; the guards appear in the order in which Python would
evaluate the corresponding subexpressions.
-/

open Real

/-- The magnetic-parameters object consumed by the solver: the code reads
the applied field H, the anisotropy field Hk, the damping constant alpha
and the gyromagnetic ratio gamma from it. -/
structure MagParameters where
  H : ℝ
  Hk : ℝ
  alpha : ℝ
  gamma : ℝ

/-- A spherical point as built by utils.SphPoint(r, azi, pol). -/
structure SphPoint where
  r : ℝ
  azi : ℝ
  pol : ℝ

/-- Python float modulo: x % y = x - y * floor(x / y). -/
noncomputable def pymod (x y : ℝ) : ℝ := x - y * ⌊x / y⌋

/-- The nested helper azi_into_range from calculate_azimuthal:
a = azi % (2*pi); if a < 0: a += 2*pi; return a. -/
noncomputable def azi_into_range (azi : ℝ) : ℝ :=
  if pymod azi (2 * π) < 0 then pymod azi (2 * π) + 2 * π
  else pymod azi (2 * π)

/-- calculate_switching_time from mallinson.py.  Guards mirror the places
where Python raises: the division by gamma*alpha in the prefactor, the
division by H^2 - Hk^2, the divisions inside the three logarithms and the
logarithms of non-positive arguments. -/
noncomputable def calculate_switching_time
    (mp : MagParameters) (p_start p_now : ℝ) : Option ℝ :=
  if mp.gamma * mp.alpha = 0 then none
  else if mp.H ^ 2 - mp.Hk ^ 2 = 0 then none
  else if Real.tan (p_start / 2) = 0 then none
  else if Real.tan (p_now / 2) / Real.tan (p_start / 2) ≤ 0 then none
  else if mp.H - mp.Hk * Real.cos p_now = 0 then none
  else if (mp.H - mp.Hk * Real.cos p_start) / (mp.H - mp.Hk * Real.cos p_now) ≤ 0 then none
  else if Real.sin p_start = 0 then none
  else if Real.sin p_now / Real.sin p_start ≤ 0 then none
  else some
    (((mp.alpha ^ 2 + 1) / (mp.gamma * mp.alpha)) * (1 / (mp.H ^ 2 - mp.Hk ^ 2)) *
      (mp.H * Real.log (Real.tan (p_now / 2) / Real.tan (p_start / 2))
        + mp.Hk * Real.log ((mp.H - mp.Hk * Real.cos p_start) / (mp.H - mp.Hk * Real.cos p_now))
        + mp.Hk * Real.log (Real.sin p_now / Real.sin p_start)))

/-- calculate_azimuthal from mallinson.py: the raw azimuth
(-1/alpha) * log(tan(p_now/2) / tan(p_start/2)) pushed through
azi_into_range. -/
noncomputable def calculate_azimuthal
    (mp : MagParameters) (p_start p_now : ℝ) : Option ℝ :=
  if mp.alpha = 0 then none
  else if Real.tan (p_start / 2) = 0 then none
  else if Real.tan (p_now / 2) / Real.tan (p_start / 2) ≤ 0 then none
  else some
    (azi_into_range ((-1 / mp.alpha) * Real.log (Real.tan (p_now / 2) / Real.tan (p_start / 2))))

/-- scipy.linspace start stop num with endpoint=True: num equally spaced
samples from start to stop inclusive; num = 1 gives [start], num = 0 gives
the empty list. -/
noncomputable def linspace (start stop : ℝ) (num : ℕ) : List ℝ :=
  if num = 1 then [start]
  else (List.range num).map
    (fun (i : ℕ) => start + (i : ℝ) * (stop - start) / ((num : ℝ) - 1))

/-- Effectful map over a list in the Option monad: the Python list
comprehensions in mallinson.py fail as a whole as soon as one element
computation raises. -/
def optionMapM {α β : Type} (f : α → Option β) : List α → Option (List β)
  | [] => some []
  | x :: xs => (f x).bind (fun y => (optionMapM f xs).bind (fun ys => some (y :: ys)))

/-- generate_dynamics from mallinson.py: sample the polar range with
linspace, compute azimuths and switching times referenced to start_angle,
and zip the azimuths with the polar samples into spherical points of
radius 1.  A negative sample count makes scipy.linspace raise. -/
noncomputable def generate_dynamics
    (mp : MagParameters) (start_angle end_angle : ℝ) (steps : ℤ) :
    Option (List SphPoint × List ℝ) :=
  if steps < 0 then none
  else
    (optionMapM (fun p => calculate_azimuthal mp start_angle p)
        (linspace start_angle end_angle steps.toNat)).bind (fun azis =>
      (optionMapM (fun p => calculate_switching_time mp start_angle p)
          (linspace start_angle end_angle steps.toNat)).bind (fun times =>
        some ((azis.zip (linspace start_angle end_angle steps.toNat)).map
                (fun q => SphPoint.mk 1 q.1 q.2), times)))

/-- calculate_equivalent_dynamics from mallinson.py: take the first polar
angle as the start angle and recompute the exact switching times and
azimuths for every sample; indexing polars[0] on an empty list raises. -/
noncomputable def calculate_equivalent_dynamics
    (mp : MagParameters) (polars : List ℝ) : Option (List ℝ × List ℝ) :=
  match polars with
  | [] => none
  | p0 :: _ =>
    (optionMapM (fun p => calculate_switching_time mp p0 p) polars).bind
      (fun exact_times =>
        (optionMapM (fun p => calculate_azimuthal mp p0 p) polars).bind
          (fun exact_azis => some (exact_times, exact_azis)))

/-- The switching-time formula exactly as the specification states it:
prefactor = (alpha^2 + 1) / (gamma * alpha) * 1 / (H^2 - Hk^2) and
time = prefactor * (a + b + c). -/
noncomputable def spec_switching_time (H Hk alpha gamma p_start p_now : ℝ) : ℝ :=
  ((alpha ^ 2 + 1) / (gamma * alpha)) * (1 / (H ^ 2 - Hk ^ 2)) *
    (H * Real.log (Real.tan (p_now / 2) / Real.tan (p_start / 2))
      + Hk * Real.log ((H - Hk * Real.cos p_start) / (H - Hk * Real.cos p_now))
      + Hk * Real.log (Real.sin p_now / Real.sin p_start))

/-- The antiderivative underlying the Mallinson switching-time formula:
a + b + c in the source equals this function evaluated at p_now minus its
value at p_start. -/
noncomputable def mallinson_g (H Hk p : ℝ) : ℝ :=
  H * Real.log (Real.tan (p / 2)) - Hk * Real.log (H - Hk * Real.cos p)
    + Hk * Real.log (Real.sin p)

/-! ### Helper lemmas about the angle wrap -/

lemma pymod_eq_fract (x y : ℝ) (hy : y ≠ 0) : pymod x y = y * Int.fract (x / y) := by
  unfold pymod Int.fract
  field_simp

lemma pymod_nonneg (x y : ℝ) (hy : 0 < y) : 0 ≤ pymod x y := by
  rw [pymod_eq_fract x y (ne_of_gt hy)]
  exact mul_nonneg (le_of_lt hy) (Int.fract_nonneg _)

lemma pymod_lt (x y : ℝ) (hy : 0 < y) : pymod x y < y := by
  rw [pymod_eq_fract x y (ne_of_gt hy)]
  calc y * Int.fract (x / y) < y * 1 := mul_lt_mul_of_pos_left (Int.fract_lt_one _) hy
    _ = y := mul_one y

lemma azi_into_range_eq (x : ℝ) : azi_into_range x = pymod x (2 * π) := by
  unfold azi_into_range
  exact if_neg (not_lt.mpr (pymod_nonneg x _ Real.two_pi_pos))

lemma azi_into_range_nonneg (x : ℝ) : 0 ≤ azi_into_range x := by
  rw [azi_into_range_eq]
  exact pymod_nonneg _ _ Real.two_pi_pos

lemma azi_into_range_lt (x : ℝ) : azi_into_range x < 2 * π := by
  rw [azi_into_range_eq]
  exact pymod_lt _ _ Real.two_pi_pos

/-! ### Helper lemmas about the switching-time formula -/

lemma tan_half_pos {p : ℝ} (h0 : 0 < p) (hπ : p < π) : 0 < Real.tan (p / 2) :=
  Real.tan_pos_of_pos_of_lt_pi_div_two (by linarith) (by linarith)

lemma field_cos_pos {H Hk : ℝ} (p : ℝ) (h0 : 0 ≤ Hk) (hH : Hk < H) :
    0 < H - Hk * Real.cos p := by
  have := mul_le_of_le_one_right h0 (Real.cos_le_one p)
  linarith

lemma calculate_switching_time_eq_some (H Hk alpha gamma p_start p_now : ℝ)
    (h0k : 0 ≤ Hk) (hkh : Hk < H) (hga : gamma * alpha ≠ 0)
    (hs0 : 0 < p_start) (hsπ : p_start < π) (hn0 : 0 < p_now) (hnπ : p_now < π) :
    calculate_switching_time ⟨H, Hk, alpha, gamma⟩ p_start p_now =
      some (((alpha ^ 2 + 1) / (gamma * alpha)) * (1 / (H ^ 2 - Hk ^ 2)) *
        (mallinson_g H Hk p_now - mallinson_g H Hk p_start)) := by
  have hts : 0 < Real.tan (p_start / 2) := tan_half_pos hs0 hsπ
  have htn : 0 < Real.tan (p_now / 2) := tan_half_pos hn0 hnπ
  have hss : 0 < Real.sin p_start := Real.sin_pos_of_pos_of_lt_pi hs0 hsπ
  have hsn : 0 < Real.sin p_now := Real.sin_pos_of_pos_of_lt_pi hn0 hnπ
  have hds : 0 < H - Hk * Real.cos p_start := field_cos_pos p_start h0k hkh
  have hdn : 0 < H - Hk * Real.cos p_now := field_cos_pos p_now h0k hkh
  have hH2 : 0 < H ^ 2 - Hk ^ 2 := by nlinarith
  unfold calculate_switching_time
  dsimp only
  rw [if_neg hga, if_neg (ne_of_gt hH2), if_neg (ne_of_gt hts),
    if_neg (not_le.mpr (div_pos htn hts)), if_neg (ne_of_gt hdn),
    if_neg (not_le.mpr (div_pos hds hdn)), if_neg (ne_of_gt hss),
    if_neg (not_le.mpr (div_pos hsn hss))]
  congr 1
  rw [Real.log_div (ne_of_gt htn) (ne_of_gt hts),
    Real.log_div (ne_of_gt hds) (ne_of_gt hdn),
    Real.log_div (ne_of_gt hsn) (ne_of_gt hss)]
  unfold mallinson_g
  ring

/-! ### C9 -/

/-- C9: calculate_azimuthal reads only alpha from the parameters object:
two parameter sets sharing alpha but with arbitrarily different H, Hk and
gamma produce identical azimuths for all angle pairs. -/
theorem azimuthal_noninterference
    (H1 Hk1 gamma1 H2 Hk2 gamma2 alpha p_start p_now : ℝ) :
    calculate_azimuthal ⟨H1, Hk1, alpha, gamma1⟩ p_start p_now =
      calculate_azimuthal ⟨H2, Hk2, alpha, gamma2⟩ p_start p_now := rfl

/-! ### C7 -/

/-- C7 counterexample: a step count of zero does not raise; generate_dynamics
returns the empty trajectory, contradicting the claim that every non-positive
step count fails. -/
theorem generate_dynamics_zero_steps_returns_empty :
    generate_dynamics ⟨1, 0, 1, 1⟩ 0 1 0 = some ([], []) := by
  unfold generate_dynamics
  norm_num [linspace, optionMapM]

/-- C7 amended: every strictly negative step count makes generate_dynamics
fail immediately (scipy.linspace rejects a negative sample count), for every
parameter set and angle range. -/
theorem generate_dynamics_negative_steps_fails
    (mp : MagParameters) (s e : ℝ) (steps : ℤ) (h : steps < 0) :
    generate_dynamics mp s e steps = none := by
  unfold generate_dynamics
  rw [if_pos h]

/-- Witness for the amended C7 theorem at steps = -1. -/
theorem generate_dynamics_negative_steps_fails_witness :
    generate_dynamics ⟨1, 0, 1, 1⟩ 0 1 (-1) = none :=
  generate_dynamics_negative_steps_fails ⟨1, 0, 1, 1⟩ 0 1 (-1) (by norm_num)

/-! ### C2 -/

/-- C2 counterexample: with the subcritical fields H = 0.9, Hk = 1.0 and
angles p_start = p_now = pi/2 every logarithm argument is positive, so
calculate_switching_time returns the value 0 instead of raising an error. -/
theorem subcritical_field_returns_value :
    calculate_switching_time ⟨9/10, 1, 1, 1⟩ (π/2) (π/2) = some 0 := by
  unfold calculate_switching_time
  norm_num [show (π/2/2 : ℝ) = π/4 by ring, Real.tan_pi_div_four,
    Real.sin_pi_div_two, Real.cos_pi_div_two, Real.log_one]

/-- C2 amended: the code performs no subcritical-field check; a failure does
occur whenever H = Hk, because the prefactor denominator H^2 - Hk^2 is then
zero, for every angle pair and every alpha and gamma. -/
theorem switching_time_critical_field_fails
    (mp : MagParameters) (p_start p_now : ℝ) (h : mp.H = mp.Hk) :
    calculate_switching_time mp p_start p_now = none := by
  unfold calculate_switching_time
  rcases eq_or_ne (mp.gamma * mp.alpha) 0 with h1 | h1
  · rw [if_pos h1]
  · rw [if_neg h1, if_pos (by rw [h]; ring)]

/-- Witness for the amended C2 theorem at H = Hk = 1. -/
theorem switching_time_critical_field_fails_witness :
    calculate_switching_time ⟨1, 1, 1, 1⟩ 1 1 = none :=
  switching_time_critical_field_fails ⟨1, 1, 1, 1⟩ 1 1 (by norm_num)

/-! ### C1 -/

/-- C1: whenever calculate_switching_time returns a value for polar angles
in (0, π), that value is exactly prefactor * (a + b + c) with
prefactor = (alpha^2 + 1)/(gamma alpha) * 1/(H^2 - Hk^2),
a = H ln(tan(p_now/2)/tan(p_start/2)),
b = Hk ln((H - Hk cos p_start)/(H - Hk cos p_now)),
c = Hk ln(sin p_now / sin p_start), exactly as the spec states. -/
theorem switching_time_matches_spec_formula
    (mp : MagParameters) (p_start p_now t : ℝ)
    (hs : p_start ∈ Set.Ioo 0 π) (hn : p_now ∈ Set.Ioo 0 π)
    (h : calculate_switching_time mp p_start p_now = some t) :
    t = spec_switching_time mp.H mp.Hk mp.alpha mp.gamma p_start p_now := by
  unfold calculate_switching_time at h
  split_ifs at h <;> try exact Option.noConfusion h
  injection h with h
  rw [← h]
  rfl

/-- Concrete evaluation of the switching time at H = 1, Hk = 0,
alpha = gamma = 1 and p_start = p_now = pi/2: all guards pass and every
logarithm is log 1 = 0. -/
lemma switching_time_demo :
    calculate_switching_time ⟨1, 0, 1, 1⟩ (π/2) (π/2) = some 0 := by
  unfold calculate_switching_time
  norm_num [show (π/2/2 : ℝ) = π/4 by ring, Real.tan_pi_div_four,
    Real.sin_pi_div_two, Real.log_one]

/-- Witness for C1 at H = 1, Hk = 0, alpha = gamma = 1,
p_start = p_now = pi/2. -/
theorem switching_time_matches_spec_formula_witness :
    (0 : ℝ) = spec_switching_time 1 0 1 1 (π/2) (π/2) :=
  switching_time_matches_spec_formula ⟨1, 0, 1, 1⟩ (π/2) (π/2) 0
    ⟨by linarith [Real.pi_pos], by linarith [Real.pi_pos]⟩
    ⟨by linarith [Real.pi_pos], by linarith [Real.pi_pos]⟩
    switching_time_demo

/-! ### C4 -/

/-- C4: for alpha > 0 and polar angles in (0, π), calculate_azimuthal
returns the raw value (-1/alpha) ln(tan(p_now/2)/tan(p_start/2)) wrapped
into [0, 2π): the returned azimuth differs from the raw value by an
integer multiple of 2π and satisfies 0 ≤ A < 2π. -/
theorem azimuthal_wrapped_into_range
    (mp : MagParameters) (p_start p_now : ℝ) (halpha : 0 < mp.alpha)
    (hs : p_start ∈ Set.Ioo 0 π) (hn : p_now ∈ Set.Ioo 0 π) :
    ∃ A : ℝ, calculate_azimuthal mp p_start p_now = some A ∧
      (∃ k : ℤ, A = (-1 / mp.alpha) *
        Real.log (Real.tan (p_now / 2) / Real.tan (p_start / 2)) - 2 * π * k) ∧
      0 ≤ A ∧ A < 2 * π := by
  obtain ⟨hs0, hsπ⟩ := hs
  obtain ⟨hn0, hnπ⟩ := hn
  have hts : 0 < Real.tan (p_start / 2) := tan_half_pos hs0 hsπ
  have htn : 0 < Real.tan (p_now / 2) := tan_half_pos hn0 hnπ
  refine ⟨azi_into_range ((-1 / mp.alpha) *
      Real.log (Real.tan (p_now / 2) / Real.tan (p_start / 2))), ?_, ?_,
      azi_into_range_nonneg _, azi_into_range_lt _⟩
  · unfold calculate_azimuthal
    rw [if_neg (ne_of_gt halpha), if_neg (ne_of_gt hts),
      if_neg (not_le.mpr (div_pos htn hts))]
  · refine ⟨⌊((-1 / mp.alpha) *
      Real.log (Real.tan (p_now / 2) / Real.tan (p_start / 2))) / (2 * π)⌋, ?_⟩
    rw [azi_into_range_eq]
    unfold pymod
    ring

/-- Witness for C4 at alpha = 1 and p_start = p_now = pi/2. -/
theorem azimuthal_wrapped_into_range_witness :
    ∃ A : ℝ, calculate_azimuthal ⟨1, 0, 1, 1⟩ (π/2) (π/2) = some A ∧
      (∃ k : ℤ, A = (-1 / (1:ℝ)) *
        Real.log (Real.tan (π/2/2) / Real.tan (π/2/2)) - 2 * π * k) ∧
      0 ≤ A ∧ A < 2 * π :=
  azimuthal_wrapped_into_range ⟨1, 0, 1, 1⟩ (π/2) (π/2) (by norm_num)
    ⟨by linarith [Real.pi_pos], by linarith [Real.pi_pos]⟩
    ⟨by linarith [Real.pi_pos], by linarith [Real.pi_pos]⟩

/-! ### C5 -/

/-- C5: for a parameter set satisfying the data-model invariants
(0 ≤ Hk < H, alpha > 0, gamma ≠ 0) and any polar angle p in (0, π), the
switching time from p to p is exactly 0 and the azimuth from p to p is
exactly 0. -/
theorem time_and_azimuth_zero_at_start
    (H Hk alpha gamma p : ℝ) (h0k : 0 ≤ Hk) (hkh : Hk < H)
    (ha : 0 < alpha) (hg : gamma ≠ 0) (hp0 : 0 < p) (hpπ : p < π) :
    calculate_switching_time ⟨H, Hk, alpha, gamma⟩ p p = some 0 ∧
      calculate_azimuthal ⟨H, Hk, alpha, gamma⟩ p p = some 0 := by
  constructor
  · rw [calculate_switching_time_eq_some H Hk alpha gamma p p h0k hkh
      (mul_ne_zero hg (ne_of_gt ha)) hp0 hpπ hp0 hpπ]
    norm_num
  · have hts : 0 < Real.tan (p / 2) := tan_half_pos hp0 hpπ
    unfold calculate_azimuthal
    dsimp only
    rw [if_neg (ne_of_gt ha), if_neg (ne_of_gt hts),
      if_neg (not_le.mpr (div_pos hts hts))]
    rw [div_self (ne_of_gt hts), Real.log_one, mul_zero]
    rw [azi_into_range_eq]
    unfold pymod
    norm_num

/-- Witness for C5 at H = 1, Hk = 0, alpha = gamma = 1, p = pi/2. -/
theorem time_and_azimuth_zero_at_start_witness :
    calculate_switching_time ⟨1, 0, 1, 1⟩ (π/2) (π/2) = some 0 ∧
      calculate_azimuthal ⟨1, 0, 1, 1⟩ (π/2) (π/2) = some 0 :=
  time_and_azimuth_zero_at_start 1 0 1 1 (π/2) (by norm_num) (by norm_num)
    (by norm_num) (by norm_num) (by linarith [Real.pi_pos])
    (by linarith [Real.pi_pos])

/-! ### List-level helper lemmas -/

lemma optionMapM_length {α β : Type} (f : α → Option β) (l : List α) :
    ∀ l2 : List β, optionMapM f l = some l2 → l2.length = l.length := by
  induction l with
  | nil =>
    intro l2 h
    unfold optionMapM at h
    injection h with h
    rw [← h]
    rfl
  | cons x xs ih =>
    intro l2 h
    unfold optionMapM at h
    cases hfx : f x with
    | none => rw [hfx, Option.none_bind] at h; exact Option.noConfusion h
    | some y =>
      rw [hfx, Option.some_bind] at h
      cases hrec : optionMapM f xs with
      | none => rw [hrec, Option.none_bind] at h; exact Option.noConfusion h
      | some ys =>
        rw [hrec, Option.some_bind] at h
        injection h with h
        rw [← h]
        simp [ih ys hrec]

lemma optionMapM_mem {α β : Type} (f : α → Option β) (l : List α) :
    ∀ l2 : List β, optionMapM f l = some l2 →
      ∀ b ∈ l2, ∃ a ∈ l, f a = some b := by
  induction l with
  | nil =>
    intro l2 h b hb
    unfold optionMapM at h
    injection h with h
    rw [← h] at hb
    simp at hb
  | cons x xs ih =>
    intro l2 h b hb
    unfold optionMapM at h
    cases hfx : f x with
    | none => rw [hfx, Option.none_bind] at h; exact Option.noConfusion h
    | some y =>
      rw [hfx, Option.some_bind] at h
      cases hrec : optionMapM f xs with
      | none => rw [hrec, Option.none_bind] at h; exact Option.noConfusion h
      | some ys =>
        rw [hrec, Option.some_bind] at h
        injection h with h
        rw [← h] at hb
        rcases List.mem_cons.mp hb with rfl | hb2
        · exact ⟨x, List.mem_cons_self x xs, hfx⟩
        · obtain ⟨a, ha, hfa⟩ := ih ys hrec b hb2
          exact ⟨a, List.mem_cons_of_mem x ha, hfa⟩

lemma linspace_length (s e : ℝ) (n : ℕ) : (linspace s e n).length = n := by
  unfold linspace
  split_ifs with h
  · rw [h]
    rfl
  · rw [List.length_map, List.length_range]

lemma linspace_head (s e : ℝ) (n : ℕ) (h : 1 ≤ n) :
    ∃ tl, linspace s e n = s :: tl := by
  unfold linspace
  split_ifs with h1
  · exact ⟨[], rfl⟩
  · obtain ⟨m, rfl⟩ : ∃ m, n = m + 1 := ⟨n - 1, by omega⟩
    refine ⟨((List.range m).map Nat.succ).map
      (fun (i : ℕ) => s + (i : ℝ) * (e - s) / ((↑(m + 1) : ℝ) - 1)), ?_⟩
    rw [List.range_succ_eq_map, List.map_cons]
    congr 1
    norm_num

lemma zip_map_pol : ∀ (azis pols : List ℝ), azis.length = pols.length →
    ((azis.zip pols).map (fun q => SphPoint.mk 1 q.1 q.2)).map SphPoint.pol = pols
  | [], [], _ => rfl
  | [], p :: ps, h => by simp at h
  | a :: bs, [], h => by simp at h
  | a :: bs, p :: ps, h => by
    simp only [List.zip_cons_cons, List.map_cons, List.cons.injEq]
    exact ⟨trivial, zip_map_pol bs ps (by simpa using h)⟩

lemma zip_map_azi : ∀ (azis pols : List ℝ), azis.length = pols.length →
    ((azis.zip pols).map (fun q => SphPoint.mk 1 q.1 q.2)).map SphPoint.azi = azis
  | [], [], _ => rfl
  | [], p :: ps, h => by simp at h
  | a :: bs, [], h => by simp at h
  | a :: bs, p :: ps, h => by
    simp only [List.zip_cons_cons, List.map_cons, List.cons.injEq]
    exact ⟨trivial, zip_map_azi bs ps (by simpa using h)⟩

lemma chain_of_forall {α : Type} {R : α → α → Prop} {P : α → Prop}
    (hR : ∀ a b, P a → P b → R a b) :
    ∀ l : List α, (∀ x ∈ l, P x) → List.Chain' R l
  | [], _ => List.chain'_nil
  | [x], _ => List.chain'_singleton x
  | x :: y :: ys, hP => by
    rw [List.chain'_cons]
    exact ⟨hR x y (hP x (by simp)) (hP y (by simp)),
      chain_of_forall hR (y :: ys) (fun z hz => hP z (List.mem_cons_of_mem x hz))⟩

/-- Any value actually returned by calculate_azimuthal lies in [0, 2π). -/
lemma calculate_azimuthal_range (mp : MagParameters) (p_start p_now A : ℝ)
    (h : calculate_azimuthal mp p_start p_now = some A) : 0 ≤ A ∧ A < 2 * π := by
  unfold calculate_azimuthal at h
  split_ifs at h <;> try exact Option.noConfusion h
  injection h with h
  rw [← h]
  exact ⟨azi_into_range_nonneg _, azi_into_range_lt _⟩

/-! ### Concrete evaluations used by witnesses -/

/-- Concrete evaluation of the azimuth at alpha = 1, p_start = p_now = pi/2. -/
lemma azimuthal_demo : calculate_azimuthal ⟨1, 0, 1, 1⟩ (π/2) (π/2) = some 0 := by
  unfold calculate_azimuthal
  rw [azi_into_range_eq]
  unfold pymod
  norm_num [show (π/2/2 : ℝ) = π/4 by ring, Real.tan_pi_div_four, Real.log_one]

/-- Concrete evaluation of generate_dynamics with a single step. -/
lemma generate_dynamics_demo :
    generate_dynamics ⟨1, 0, 1, 1⟩ (π/2) (π/2) 1 =
      some ([SphPoint.mk 1 0 (π/2)], [0]) := by
  unfold generate_dynamics
  rw [if_neg (by norm_num)]
  have h2 : linspace (π/2) (π/2) ((1 : ℤ).toNat) = [π/2] := by
    unfold linspace
    rw [if_pos (show ((1 : ℤ).toNat) = 1 from rfl)]
  rw [h2]
  simp [optionMapM, azimuthal_demo, switching_time_demo]

lemma linspace_demo2 : linspace (π/2) (π/2) 2 = [π/2, π/2] := by
  unfold linspace
  rw [if_neg (by norm_num)]
  norm_num [List.range_succ]

/-- Concrete evaluation of generate_dynamics with two steps. -/
lemma generate_dynamics_demo2 :
    generate_dynamics ⟨1, 0, 1, 1⟩ (π/2) (π/2) 2 =
      some ([SphPoint.mk 1 0 (π/2), SphPoint.mk 1 0 (π/2)], [0, 0]) := by
  unfold generate_dynamics
  rw [if_neg (by norm_num)]
  have h2 : linspace (π/2) (π/2) ((2 : ℤ).toNat) = [π/2, π/2] := linspace_demo2
  rw [h2]
  simp [optionMapM, azimuthal_demo, switching_time_demo]

/-- Definitional unfolding of calculate_equivalent_dynamics on a non-empty
list: polars[0] is the head. -/
lemma calculate_equivalent_dynamics_cons_eq (mp : MagParameters) (p0 : ℝ)
    (rest : List ℝ) :
    calculate_equivalent_dynamics mp (p0 :: rest) =
      (optionMapM (fun p => calculate_switching_time mp p0 p) (p0 :: rest)).bind
        (fun exact_times =>
          (optionMapM (fun p => calculate_azimuthal mp p0 p) (p0 :: rest)).bind
            (fun exact_azis => some (exact_times, exact_azis))) := rfl

/-- Concrete evaluation of calculate_equivalent_dynamics on the singleton
list containing pi/2. -/
lemma equivalent_dynamics_demo :
    calculate_equivalent_dynamics ⟨1, 0, 1, 1⟩ [π/2] = some ([0], [0]) := by
  rw [calculate_equivalent_dynamics_cons_eq]
  simp [optionMapM, azimuthal_demo, switching_time_demo]

/-! ### C10 -/

/-- C10: generate_dynamics returns two index-aligned sequences whose common
length equals the requested number of steps, and
calculate_equivalent_dynamics returns two sequences whose common length
equals the length of its non-empty input list of polar angles. -/
theorem output_lengths_align :
    (∀ (mp : MagParameters) (s e : ℝ) (steps : ℤ) (sphs : List SphPoint)
        (times : List ℝ), 1 ≤ steps →
        generate_dynamics mp s e steps = some (sphs, times) →
        (sphs.length : ℤ) = steps ∧ (times.length : ℤ) = steps) ∧
    (∀ (mp : MagParameters) (polars ts azs : List ℝ), polars ≠ [] →
        calculate_equivalent_dynamics mp polars = some (ts, azs) →
        ts.length = polars.length ∧ azs.length = polars.length) := by
  constructor
  · intro mp s e steps sphs times hsteps h
    unfold generate_dynamics at h
    rw [if_neg (by omega)] at h
    rcases hmA : optionMapM (fun p => calculate_azimuthal mp s p)
        (linspace s e steps.toNat) with _ | azis
    · rw [hmA, Option.none_bind] at h
      exact Option.noConfusion h
    rw [hmA, Option.some_bind] at h
    rcases hmT : optionMapM (fun p => calculate_switching_time mp s p)
        (linspace s e steps.toNat) with _ | ts
    · rw [hmT, Option.none_bind] at h
      exact Option.noConfusion h
    rw [hmT, Option.some_bind] at h
    injection h with h
    rw [Prod.mk.injEq] at h
    obtain ⟨h1, h2⟩ := h
    have hlenA : azis.length = steps.toNat := by
      rw [optionMapM_length _ _ _ hmA, linspace_length]
    have hlenT : ts.length = steps.toNat := by
      rw [optionMapM_length _ _ _ hmT, linspace_length]
    constructor
    · rw [← h1, List.length_map, List.length_zip, hlenA, linspace_length,
        min_self]
      omega
    · rw [← h2, hlenT]
      omega
  · intro mp polars ts azs hne h
    rcases polars with _ | ⟨p0, rest⟩
    · exact absurd rfl hne
    rw [calculate_equivalent_dynamics_cons_eq] at h
    rcases hmT : optionMapM (fun p => calculate_switching_time mp p0 p)
        (p0 :: rest) with _ | ts2
    · rw [hmT, Option.none_bind] at h
      exact Option.noConfusion h
    rw [hmT, Option.some_bind] at h
    rcases hmA : optionMapM (fun p => calculate_azimuthal mp p0 p)
        (p0 :: rest) with _ | azs2
    · rw [hmA, Option.none_bind] at h
      exact Option.noConfusion h
    rw [hmA, Option.some_bind] at h
    injection h with h
    rw [Prod.mk.injEq] at h
    obtain ⟨h1, h2⟩ := h
    rw [← h1, ← h2]
    exact ⟨optionMapM_length _ _ _ hmT, optionMapM_length _ _ _ hmA⟩

/-- Witness for C10 applying both halves at concrete inputs. -/
theorem output_lengths_align_witness :
    ((([SphPoint.mk 1 0 (π/2)] : List SphPoint).length : ℤ) = 1 ∧
      (([(0 : ℝ)] : List ℝ).length : ℤ) = 1) ∧
    (([(0 : ℝ)] : List ℝ).length = ([π/2] : List ℝ).length ∧
      ([(0 : ℝ)] : List ℝ).length = ([π/2] : List ℝ).length) :=
  ⟨output_lengths_align.1 ⟨1, 0, 1, 1⟩ (π/2) (π/2) 1 [SphPoint.mk 1 0 (π/2)]
      [0] (by norm_num) generate_dynamics_demo,
    output_lengths_align.2 ⟨1, 0, 1, 1⟩ [π/2] [0] [0] (by simp)
      equivalent_dynamics_demo⟩

/-! ### C8 -/

/-- C8: every trajectory produced by generate_dynamics satisfies the
quasi-monotonicity invariant the tests check: each consecutive azimuth
pair (prev, next) has prev > next, or exhibits the wrap condition
prev - 2π ≤ 0 ≤ next; the wrap disjunct in fact always holds because every
azimuth lies in [0, 2π). -/
theorem azimuth_quasi_monotone
    (mp : MagParameters) (s e : ℝ) (steps : ℤ)
    (sphs : List SphPoint) (times : List ℝ)
    (h : generate_dynamics mp s e steps = some (sphs, times)) :
    List.Chain' (fun a b => a.azi > b.azi ∨ (a.azi - 2 * π ≤ 0 ∧ 0 ≤ b.azi))
      sphs := by
  have hP : ∀ x ∈ sphs, 0 ≤ x.azi ∧ x.azi < 2 * π := by
    intro x hx
    unfold generate_dynamics at h
    by_cases hst : steps < 0
    · rw [if_pos hst] at h
      exact Option.noConfusion h
    rw [if_neg hst] at h
    rcases hmA : optionMapM (fun p => calculate_azimuthal mp s p)
        (linspace s e steps.toNat) with _ | azis
    · rw [hmA, Option.none_bind] at h
      exact Option.noConfusion h
    rw [hmA, Option.some_bind] at h
    rcases hmT : optionMapM (fun p => calculate_switching_time mp s p)
        (linspace s e steps.toNat) with _ | ts
    · rw [hmT, Option.none_bind] at h
      exact Option.noConfusion h
    rw [hmT, Option.some_bind] at h
    injection h with h
    rw [Prod.mk.injEq] at h
    obtain ⟨h1, h2⟩ := h
    rw [← h1] at hx
    obtain ⟨q, hq, rfl⟩ := List.mem_map.mp hx
    rcases q with ⟨qa, qp⟩
    obtain ⟨p, hp, hcazi⟩ :=
      optionMapM_mem _ _ _ hmA qa (List.of_mem_zip hq).1
    exact calculate_azimuthal_range mp s p qa hcazi
  exact chain_of_forall
    (fun a b ha hb => Or.inr ⟨by linarith [ha.2], hb.1⟩) sphs hP

/-- Witness for C8 on the concrete two-step trajectory. -/
theorem azimuth_quasi_monotone_witness :
    List.Chain' (fun a b => a.azi > b.azi ∨ (a.azi - 2 * π ≤ 0 ∧ 0 ≤ b.azi))
      [SphPoint.mk 1 0 (π/2), SphPoint.mk 1 0 (π/2)] :=
  azimuth_quasi_monotone ⟨1, 0, 1, 1⟩ (π/2) (π/2) 2 _ _ generate_dynamics_demo2

/-! ### C6 -/

lemma calculate_equivalent_dynamics_cons (mp : MagParameters) (p0 : ℝ)
    (rest : List ℝ) (ts azs : List ℝ)
    (hT : optionMapM (fun p => calculate_switching_time mp p0 p) (p0 :: rest) =
      some ts)
    (hA : optionMapM (fun p => calculate_azimuthal mp p0 p) (p0 :: rest) =
      some azs) :
    calculate_equivalent_dynamics mp (p0 :: rest) = some (ts, azs) := by
  rw [calculate_equivalent_dynamics_cons_eq, hT, Option.some_bind, hA,
    Option.some_bind]

/-- C6: feeding the polar angles of a generate_dynamics trajectory (whose
first polar sample is the start angle) back through
calculate_equivalent_dynamics reproduces the switching times and azimuths
exactly, element for element. -/
theorem round_trip_exact
    (mp : MagParameters) (s e : ℝ) (steps : ℤ) (sphs : List SphPoint)
    (times : List ℝ) (hsteps : 1 ≤ steps)
    (h : generate_dynamics mp s e steps = some (sphs, times)) :
    calculate_equivalent_dynamics mp (sphs.map SphPoint.pol) =
      some (times, sphs.map SphPoint.azi) := by
  unfold generate_dynamics at h
  rw [if_neg (by omega)] at h
  rcases hmA : optionMapM (fun p => calculate_azimuthal mp s p)
      (linspace s e steps.toNat) with _ | azis
  · rw [hmA, Option.none_bind] at h
    exact Option.noConfusion h
  rw [hmA, Option.some_bind] at h
  rcases hmT : optionMapM (fun p => calculate_switching_time mp s p)
      (linspace s e steps.toNat) with _ | ts
  · rw [hmT, Option.none_bind] at h
    exact Option.noConfusion h
  rw [hmT, Option.some_bind] at h
  injection h with h
  rw [Prod.mk.injEq] at h
  obtain ⟨h1, h2⟩ := h
  have hlen : azis.length = (linspace s e steps.toNat).length :=
    optionMapM_length _ _ _ hmA
  have hpol : sphs.map SphPoint.pol = linspace s e steps.toNat := by
    rw [← h1]
    exact zip_map_pol azis _ hlen
  have hazi : sphs.map SphPoint.azi = azis := by
    rw [← h1]
    exact zip_map_azi azis _ hlen
  obtain ⟨tl, htl⟩ := linspace_head s e steps.toNat (by omega)
  rw [hpol, hazi, ← h2, htl]
  rw [htl] at hmA hmT
  exact calculate_equivalent_dynamics_cons mp s tl ts azis hmT hmA

/-- Witness for C6 on the concrete one-step trajectory. -/
theorem round_trip_exact_witness :
    calculate_equivalent_dynamics ⟨1, 0, 1, 1⟩
        ([SphPoint.mk 1 0 (π/2)].map SphPoint.pol) =
      some ([0], [SphPoint.mk 1 0 (π/2)].map SphPoint.azi) :=
  round_trip_exact ⟨1, 0, 1, 1⟩ (π/2) (π/2) 1 _ _ (by norm_num)
    generate_dynamics_demo

/-! ### C3 -/

lemma hasDerivAt_mallinson_g (H Hk : ℝ) (h0k : 0 ≤ Hk) (hkh : Hk < H) (p : ℝ)
    (hp0 : 0 < p) (hp2 : p < π / 2) :
    HasDerivAt (fun x => mallinson_g H Hk x)
      ((H ^ 2 - Hk ^ 2) / (Real.sin p * (H - Hk * Real.cos p))) p := by
  have hpπ : p < π := by linarith [Real.pi_pos]
  have hs : 0 < Real.sin p := Real.sin_pos_of_pos_of_lt_pi hp0 hpπ
  have hs2 : 0 < Real.sin (p / 2) :=
    Real.sin_pos_of_pos_of_lt_pi (by linarith) (by linarith [Real.pi_pos])
  have hc2 : 0 < Real.cos (p / 2) :=
    Real.cos_pos_of_mem_Ioo ⟨by linarith [Real.pi_pos], by linarith [Real.pi_pos]⟩
  have htn : 0 < Real.tan (p / 2) := by
    rw [Real.tan_eq_sin_div_cos]
    exact div_pos hs2 hc2
  have hd : 0 < H - Hk * Real.cos p := field_cos_pos p h0k hkh
  have hsin2 : Real.sin p = 2 * Real.sin (p / 2) * Real.cos (p / 2) := by
    have h := Real.sin_two_mul (p / 2)
    rw [show 2 * (p / 2) = p by ring] at h
    exact h
  have hhalf : HasDerivAt (fun x : ℝ => x / 2) ((1 : ℝ) / 2) p := by
    simpa using (hasDerivAt_id p).div_const 2
  have htan2 : HasDerivAt (fun x => Real.tan (x / 2))
      (1 / Real.cos (p / 2) ^ 2 * (1 / 2)) p :=
    (Real.hasDerivAt_tan (ne_of_gt hc2)).comp p hhalf
  have hlt : HasDerivAt (fun x => Real.log (Real.tan (x / 2)))
      ((1 / Real.cos (p / 2) ^ 2 * (1 / 2)) / Real.tan (p / 2)) p :=
    htan2.log (ne_of_gt htn)
  have hcos2 : HasDerivAt (fun x => H - Hk * Real.cos x)
      (-(Hk * -Real.sin p)) p :=
    ((Real.hasDerivAt_cos p).const_mul Hk).const_sub H
  have hld : HasDerivAt (fun x => Real.log (H - Hk * Real.cos x))
      (-(Hk * -Real.sin p) / (H - Hk * Real.cos p)) p :=
    hcos2.log (ne_of_gt hd)
  have hls : HasDerivAt (fun x => Real.log (Real.sin x))
      (Real.cos p / Real.sin p) p :=
    (Real.hasDerivAt_sin p).log (ne_of_gt hs)
  have full := ((hlt.const_mul H).sub (hld.const_mul Hk)).add (hls.const_mul Hk)
  have hA : (1 / Real.cos (p / 2) ^ 2 * (1 / 2)) / Real.tan (p / 2) =
      1 / Real.sin p := by
    rw [Real.tan_eq_sin_div_cos, hsin2]
    field_simp
    ring
  have hval : H * ((1 / Real.cos (p / 2) ^ 2 * (1 / 2)) / Real.tan (p / 2))
      - Hk * (-(Hk * -Real.sin p) / (H - Hk * Real.cos p))
      + Hk * (Real.cos p / Real.sin p)
      = (H ^ 2 - Hk ^ 2) / (Real.sin p * (H - Hk * Real.cos p)) := by
    rw [hA]
    have h1 : Real.sin p ≠ 0 := ne_of_gt hs
    have h2 : H - Hk * Real.cos p ≠ 0 := ne_of_gt hd
    field_simp
    linear_combination (-(Real.sin p ^ 2 * (H - Hk * Real.cos p)) * Hk ^ 2) *
      Real.sin_sq_add_cos_sq p
  rw [hval] at full
  unfold mallinson_g
  exact full

lemma mallinson_g_strictMonoOn (H Hk : ℝ) (h0k : 0 ≤ Hk) (hkh : Hk < H) :
    StrictMonoOn (mallinson_g H Hk) (Set.Ioo 0 (π / 2)) := by
  apply strictMonoOn_of_deriv_pos (convex_Ioo 0 (π / 2))
  · intro x hx
    exact (hasDerivAt_mallinson_g H Hk h0k hkh x
      hx.1 hx.2).continuousAt.continuousWithinAt
  · intro x hx
    rw [interior_Ioo] at hx
    rw [(hasDerivAt_mallinson_g H Hk h0k hkh x hx.1 hx.2).deriv]
    have hs : 0 < Real.sin x :=
      Real.sin_pos_of_pos_of_lt_pi hx.1 (by linarith [Real.pi_pos, hx.2])
    have hd : 0 < H - Hk * Real.cos x := field_cos_pos x h0k hkh
    have hH2 : 0 < H ^ 2 - Hk ^ 2 := by nlinarith
    exact div_pos hH2 (mul_pos hs hd)

/-- C3 amended: with the gyromagnetic ratio strictly positive (and field
magnitudes 0 ≤ Hk < H, damping alpha > 0), the switching time is strictly
increasing in p_now: for p_start ≤ p1 < p2 < π/2 with p_start in (0, π/2),
both calls return values and the first is strictly smaller. -/
theorem switching_time_strict_mono
    (H Hk alpha gamma p_start p1 p2 : ℝ)
    (h0k : 0 ≤ Hk) (hkh : Hk < H) (ha : 0 < alpha) (hg : 0 < gamma)
    (hs0 : 0 < p_start) (hs2 : p_start < π / 2)
    (h1 : p_start ≤ p1) (h12 : p1 < p2) (h2 : p2 < π / 2) :
    ∃ t1 t2,
      calculate_switching_time ⟨H, Hk, alpha, gamma⟩ p_start p1 = some t1 ∧
      calculate_switching_time ⟨H, Hk, alpha, gamma⟩ p_start p2 = some t2 ∧
      t1 < t2 := by
  have hπ : π / 2 < π := by linarith [Real.pi_pos]
  have hga : gamma * alpha ≠ 0 := ne_of_gt (mul_pos hg ha)
  have hp1 : 0 < p1 := lt_of_lt_of_le hs0 h1
  have hp2 : 0 < p2 := lt_trans hp1 h12
  refine ⟨_, _,
    calculate_switching_time_eq_some H Hk alpha gamma p_start p1
      h0k hkh hga hs0 (by linarith) hp1 (by linarith),
    calculate_switching_time_eq_some H Hk alpha gamma p_start p2
      h0k hkh hga hs0 (by linarith) hp2 (by linarith), ?_⟩
  have hpref : 0 < (alpha ^ 2 + 1) / (gamma * alpha) * (1 / (H ^ 2 - Hk ^ 2)) := by
    have hH2 : 0 < H ^ 2 - Hk ^ 2 := by nlinarith
    have hga2 : 0 < gamma * alpha := mul_pos hg ha
    positivity
  have hgg : mallinson_g H Hk p1 < mallinson_g H Hk p2 :=
    mallinson_g_strictMonoOn H Hk h0k hkh
      ⟨hp1, lt_trans h12 h2⟩ ⟨hp2, h2⟩ h12
  have hsub : mallinson_g H Hk p1 - mallinson_g H Hk p_start <
      mallinson_g H Hk p2 - mallinson_g H Hk p_start := by linarith
  exact mul_lt_mul_of_pos_left hsub hpref

/-- Witness for the amended C3 theorem at H = 2, Hk = 1,
alpha = gamma = 1, p_start = p1 = pi/6, p2 = pi/4. -/
theorem switching_time_strict_mono_witness :
    ∃ t1 t2,
      calculate_switching_time ⟨2, 1, 1, 1⟩ (π/6) (π/6) = some t1 ∧
      calculate_switching_time ⟨2, 1, 1, 1⟩ (π/6) (π/4) = some t2 ∧
      t1 < t2 :=
  switching_time_strict_mono 2 1 1 1 (π/6) (π/6) (π/4) (by norm_num)
    (by norm_num) (by norm_num) (by norm_num) (by linarith [Real.pi_pos])
    (by linarith [Real.pi_pos]) (le_refl _) (by linarith [Real.pi_pos])
    (by linarith [Real.pi_pos])

/-- C3 counterexample: the claim allows any gamma ≠ 0, but with gamma = -1
(H = 2, Hk = 1, alpha = 1) the switching time strictly decreases: from
p_start = p1 = pi/6 the time is 0, while at p2 = pi/4 it is negative, so
the time at the larger polar angle is smaller, contradicting strict
monotonicity as claimed. -/
theorem switching_time_not_mono_neg_gamma :
    ∃ t2, calculate_switching_time ⟨2, 1, 1, -1⟩ (π/6) (π/4) = some t2 ∧
      t2 < 0 ∧ calculate_switching_time ⟨2, 1, 1, -1⟩ (π/6) (π/6) = some 0 := by
  have hπ := Real.pi_pos
  have hga : (-1 : ℝ) * 1 ≠ 0 := by norm_num
  have e1 := calculate_switching_time_eq_some 2 1 1 (-1) (π/6) (π/4)
    (by norm_num) (by norm_num) hga (by linarith) (by linarith) (by linarith)
    (by linarith)
  have e2 := calculate_switching_time_eq_some 2 1 1 (-1) (π/6) (π/6)
    (by norm_num) (by norm_num) hga (by linarith) (by linarith) (by linarith)
    (by linarith)
  refine ⟨_, e1, ?_, by rw [e2]; simp⟩
  have hgg : mallinson_g 2 1 (π/6) < mallinson_g 2 1 (π/4) :=
    mallinson_g_strictMonoOn 2 1 (by norm_num) (by norm_num)
      ⟨by linarith, by linarith⟩ ⟨by linarith, by linarith⟩ (by linarith)
  have hpref : ((1 : ℝ) ^ 2 + 1) / (-1 * 1) * (1 / ((2 : ℝ) ^ 2 - 1 ^ 2)) < 0 := by
    norm_num
  exact mul_neg_of_neg_of_pos hpref (by linarith)
